import Mathlib

set_option maxRecDepth 8192

/-!
Shallow embedding of the `expiration_list` Rust crate (`src/lib.rs`).

The container `ExpirationList<T>` stores values in a dense `Vec<Option<T>>`
plus a sparse overflow `HashMap<usize, T>`.  `usize` is modelled as `Nat`
(identifier-space overflow is an explicit non-goal of the crate), `Vec` as
`List`, and the hash map as an association list whose order stands for the
map's own (unspecified) iteration order.
-/

namespace ExpirationSpec

variable {T : Type}

/-- Association-list model of `HashMap::get`: first entry whose key matches. -/
def mapGet (m : List (Nat × T)) (k : Nat) : Option T :=
  match m with
  | [] => none
  | (k', v) :: rest => if k' = k then some v else mapGet rest k

/-- Association-list model of `HashMap::insert`: replace the existing entry
for the key, or append a new entry. -/
def mapInsert (m : List (Nat × T)) (k : Nat) (v : T) : List (Nat × T) :=
  match m with
  | [] => [(k, v)]
  | (k', v') :: rest => if k' = k then (k, v) :: rest else (k', v') :: mapInsert rest k v

/-- Association-list model of `HashMap::remove`: drop the entry for the key
(if any) and return its value together with the remaining map. -/
def mapRemove (m : List (Nat × T)) (k : Nat) : Option T × List (Nat × T) :=
  match m with
  | [] => (none, [])
  | (k', v') :: rest =>
    if k' = k then (some v', rest)
    else
      match mapRemove rest k with
      | (r, rest') => (r, (k', v') :: rest')

/-- Association-list model of `HashMap::contains_key`. -/
def mapContainsKey (m : List (Nat × T)) (k : Nat) : Bool :=
  match m with
  | [] => false
  | (k', _) :: rest => if k' = k then true else mapContainsKey rest k

/-- Number of populated (`Some`) slots of a dense-store buffer. -/
def countSome : List (Option T) → Nat
  | [] => 0
  | some _ :: rest => countSome rest + 1
  | none :: rest => countSome rest

/-- The container (`struct ExpirationList<T>`, lib.rs lines 57-62). -/
structure ExpirationList (T : Type) where
  first_id : Nat
  count : Nat
  list : List (Option T)
  map : List (Nat × T)
  deriving DecidableEq

/-- `ExpirationList::new` / `Default::default` (lib.rs lines 110-124). -/
def ExpirationList.new : ExpirationList T :=
  { first_id := 0, count := 0, list := [], map := [] }

/-- `ExpirationList::add` (lib.rs lines 127-131): push `Some(value)`,
increment `count`, return `first_id + list.len() - 1`. -/
def ExpirationList.add (s : ExpirationList T) (v : T) : Nat × ExpirationList T :=
  let s' : ExpirationList T := { s with list := s.list ++ [some v], count := s.count + 1 }
  (s'.first_id + s'.list.length - 1, s')

/-- The compaction loop of `ExpirationList::remove` (lib.rs lines 149-173):
the `for_each` over the swapped-out buffer, threading the mutable state
`shrink_count`, `count`, `map` and the freshly pushed `list`.
`fid` is `self.first_id` (unchanged during the loop), `olen` is
`original_len`, and `idx` is the enumeration index. -/
def compactGo (fid olen : Nat) :
    List (Option T) → Nat → Nat → Nat → List (Nat × T) → List (Option T) →
    Nat × Nat × List (Nat × T) × List (Option T)
  | [], _idx, sc, cnt, m, nl => (sc, cnt, m, nl)
  | v :: rest, idx, sc, cnt, m, nl =>
    if idx < sc then
      let cnt' : Nat := match v with | some _ => cnt - 1 | none => cnt
      let m' : List (Nat × T) := match v with | some x => mapInsert m (idx + fid) x | none => m
      let rem := olen - sc
      let sc' := if idx = sc - 1 ∧ cnt' * 2 < rem ∧ 32 < rem then sc + rem / 2 else sc
      compactGo fid olen rest (idx + 1) sc' cnt' m' nl
    else
      compactGo fid olen rest (idx + 1) sc cnt m (nl ++ [v])

/-- `ExpirationList::remove` (lib.rs lines 135-178).  Returns the removed
value together with the resulting container. -/
def ExpirationList.remove (s : ExpirationList T) (id : Nat) : Option T × ExpirationList T :=
  if id < s.first_id then
    match mapRemove s.map id with
    | (r, m') => (r, { s with map := m' })
  else
    match s.list[id - s.first_id]? with
    | none => (none, s)
    | some removed_value =>
      let s1 : ExpirationList T := { s with list := s.list.set (id - s.first_id) none }
      match removed_value with
      | none => (none, s1)
      | some v =>
        let count1 := s1.count - 1
        let original_len := s1.list.length
        if count1 * 2 < original_len ∧ 32 < original_len then
          match compactGo s1.first_id original_len s1.list 0 (s1.list.length / 2) count1 s1.map [] with
          | (scF, cntF, mF, nlF) =>
            (some v, { first_id := s1.first_id + scF, count := cntF, list := nlF, map := mF })
        else
          (some v, { s1 with count := count1 })

/-- `ExpirationList::get` (lib.rs lines 181-186). -/
def ExpirationList.get (s : ExpirationList T) (id : Nat) : Option T :=
  if id < s.first_id then mapGet s.map id
  else (s.list[id - s.first_id]?).join

/-- `ExpirationList::contains` (lib.rs lines 198-205).  Note: the dense-store
branch indexes `self.list` at `id`, exactly as the source does. -/
def ExpirationList.contains (s : ExpirationList T) (id : Nat) : Bool :=
  if id < s.first_id then mapContainsKey s.map id
  else
    match s.list[id]? with
    | some (some _) => true
    | _ => false

/-- Iterator state (`struct ExpirationListIterator`, lib.rs lines 64-68). -/
structure ExpirationListIterator (T : Type) where
  map_iter : Option (List (Nat × T))
  list_iter : List (Option T)
  list_id : Nat

/-- The dense-store phase of `ExpirationListIterator::next`: advance through
the slot list, skipping `None` slots, incrementing `list_id` per slot, and
yield `(list_id - 1, value)` for the first populated slot. -/
def listNext : List (Option T) → Nat → Option ((Nat × T) × (List (Option T) × Nat))
  | [], _ => none
  | none :: rest, i => listNext rest (i + 1)
  | some v :: rest, i => some ((i, v), (rest, i + 1))

/-- `ExpirationListIterator::next` (lib.rs lines 73-94): drain the map
iterator first, then walk the dense store. -/
def ExpirationListIterator.next (it : ExpirationListIterator T) :
    Option ((Nat × T) × ExpirationListIterator T) :=
  match it.map_iter with
  | some ((k, v) :: restMap) => some ((k, v), { it with map_iter := some restMap })
  | _ =>
    match listNext it.list_iter it.list_id with
    | some (p, (rest, i')) => some (p, { map_iter := none, list_iter := rest, list_id := i' })
    | none => none

/-- Upper bound on the number of `next` calls the iterator can answer. -/
def iterMeasure (it : ExpirationListIterator T) : Nat :=
  (match it.map_iter with | some m => m.length + 1 | none => 0) + it.list_iter.length

/-- Repeatedly call `next`, collecting the yielded pairs (fuelled). -/
def drainFuel : Nat → ExpirationListIterator T → List (Nat × T)
  | 0, _ => []
  | fuel + 1, it =>
    match it.next with
    | none => []
    | some (p, it') => p :: drainFuel fuel it'

/-- The full output sequence of the iterator. -/
def drain (it : ExpirationListIterator T) : List (Nat × T) :=
  drainFuel (iterMeasure it) it

/-- `IntoIterator for &ExpirationList` (lib.rs lines 97-108). -/
def intoIter (s : ExpirationList T) : ExpirationListIterator T :=
  { map_iter := some s.map, list_iter := s.list, list_id := s.first_id }

/-- The dense-store pairs `(first_id + index, value)` for populated slots,
in index order; the reference output of the iterator's second phase. -/
def drainL : List (Option T) → Nat → List (Nat × T)
  | [], _ => []
  | none :: rest, i => drainL rest (i + 1)
  | some v :: rest, i => (i, v) :: drainL rest (i + 1)

/-- A client-visible operation of the container. -/
inductive Op (T : Type) where
  | add (v : T)
  | del (id : Nat)
  deriving DecidableEq

/-- Apply one operation (dropping `add`'s returned identifier and
`remove`'s returned value). -/
def runOp (s : ExpirationList T) : Op T → ExpirationList T
  | .add v => (s.add v).2
  | .del id => (s.remove id).2

/-- Run a sequence of operations from the empty container. -/
def run (ops : List (Op T)) : ExpirationList T :=
  ops.foldl runOp ExpirationList.new

/-- The cumulative effect on the overflow map of the migration inserts the
compaction loop performs for a retired prefix `pref` of the dense store:
slot `j` of `pref`, when populated, is inserted under key `base + j`. -/
def insertAll (m : List (Nat × T)) (base : Nat) : List (Option T) → List (Nat × T)
  | [] => m
  | none :: rest => insertAll m (base + 1) rest
  | some v :: rest => insertAll (mapInsert m base v) (base + 1) rest

/-- Structural well-formedness of a container state: `count` counts the
populated dense slots, and every overflow key is below the boundary. -/
def WF (s : ExpirationList T) : Prop :=
  s.count = countSome s.list ∧ ∀ p ∈ s.map, p.1 < s.first_id

/-- The compaction trigger of `remove` (lib.rs line 148), phrased on the
pre-removal state: `id` is routed to the dense store, its slot is populated,
and after the decrement `count * 2 < original_len && original_len > 32`. -/
def triggersCompaction (s : ExpirationList T) (id : Nat) : Prop :=
  s.first_id ≤ id ∧ (s.list[id - s.first_id]?).join.isSome = true ∧
    (s.count - 1) * 2 < s.list.length ∧ 32 < s.list.length

instance (s : ExpirationList T) (id : Nat) : Decidable (triggersCompaction s id) := by
  unfold triggersCompaction; infer_instance

/-- The identifier the next `add` call will return. -/
def nextId (s : ExpirationList T) : Nat :=
  s.first_id + s.list.length

/-- `compactGo` with every unsigned subtraction of the source guarded:
`none` signals that `count -= 1` (lib.rs line 159) would underflow, or that
`shrink_count - 1` / `original_len - shrink_count` (lib.rs lines 163-168)
would be evaluated with `shrink_count < 16` or `shrink_count > original_len`. -/
def compactGoChk (fid olen : Nat) :
    List (Option T) → Nat → Nat → Nat → List (Nat × T) → List (Option T) →
    Option (Nat × Nat × List (Nat × T) × List (Option T))
  | [], _idx, sc, cnt, m, nl => some (sc, cnt, m, nl)
  | v :: rest, idx, sc, cnt, m, nl =>
    if idx < sc then
      match (match v with
             | some _ => if 0 < cnt then some (cnt - 1) else none
             | none => some cnt) with
      | none => none
      | some cnt' =>
        let m' : List (Nat × T) := match v with | some x => mapInsert m (idx + fid) x | none => m
        if 16 ≤ sc ∧ sc ≤ olen then
          let rem := olen - sc
          let sc' := if idx = sc - 1 ∧ cnt' * 2 < rem ∧ 32 < rem then sc + rem / 2 else sc
          compactGoChk fid olen rest (idx + 1) sc' cnt' m' nl
        else none
    else
      compactGoChk fid olen rest (idx + 1) sc cnt m (nl ++ [v])

/-- `remove` with every unsigned subtraction guarded: `none` signals that
`self.count -= 1` (lib.rs line 145) would underflow, or that the compaction
loop would underflow (see `compactGoChk`). -/
def removeChk (s : ExpirationList T) (id : Nat) : Option (Option T × ExpirationList T) :=
  if id < s.first_id then
    match mapRemove s.map id with
    | (r, m') => some (r, { s with map := m' })
  else
    match s.list[id - s.first_id]? with
    | none => some (none, s)
    | some removed_value =>
      let s1 : ExpirationList T := { s with list := s.list.set (id - s.first_id) none }
      match removed_value with
      | none => some (none, s1)
      | some v =>
        if 0 < s1.count then
          let count1 := s1.count - 1
          let original_len := s1.list.length
          if count1 * 2 < original_len ∧ 32 < original_len then
            match compactGoChk s1.first_id original_len s1.list 0 (s1.list.length / 2) count1 s1.map [] with
            | none => none
            | some (scF, cntF, mF, nlF) =>
              some (some v, { first_id := s1.first_id + scF, count := cntF, list := nlF, map := mF })
          else
            some (some v, { s1 with count := count1 })
        else none

/-- Scenario of spec section 8: insert 1024 values `0..1024`, remove ids
`0..513`, then remove ids `600..860`. -/
def opsC4 : List (Op Nat) :=
  (List.range' 0 1024).map Op.add ++ (List.range' 0 513).map Op.del ++
    (List.range' 600 260).map Op.del

/-- Scenario of spec section 8: FIFO churn of 10000 items (each inserted
then immediately removed), then 10 more inserts (values `0..10`), then
removal of the identifiers at offsets 4, 7 and 8 of the final batch. -/
def opsChurn : List (Op Nat) :=
  (List.range' 0 10000).flatMap (fun i => [Op.add i, Op.del i]) ++
    (List.range' 0 10).map Op.add ++ [Op.del 10004, Op.del 10007, Op.del 10008]

/-- Witness scenario: 34 inserts followed by removal of ids `0..18`; the
18th removal triggers a compaction that advances `first_id` to 17. -/
def opsC1 : List (Op Nat) :=
  (List.range' 0 34).map Op.add ++ (List.range' 0 18).map Op.del

/-- Witness scenario: 34 inserts followed by removal of ids `0..17`; the
next removal (id 17) satisfies the compaction trigger. -/
def opsPreTrig : List (Op Nat) :=
  (List.range' 0 34).map Op.add ++ (List.range' 0 17).map Op.del

/-! ### Dense-store buffer lemmas -/

theorem countSome_append (l₁ l₂ : List (Option T)) :
    countSome (l₁ ++ l₂) = countSome l₁ + countSome l₂ := by
  induction l₁ with
  | nil => simp [countSome]
  | cons a l ih => cases a <;> simp [countSome, ih] <;> omega

theorem countSome_take_add_drop (l : List (Option T)) (k : Nat) :
    countSome (l.take k) + countSome (l.drop k) = countSome l := by
  rw [← countSome_append, List.take_append_drop]

theorem countSome_pos (l : List (Option T)) (i : Nat) (v : T)
    (h : l[i]? = some (some v)) : 0 < countSome l := by
  induction l generalizing i with
  | nil => simp at h
  | cons a rest ih =>
    cases i with
    | zero => simp at h; subst h; simp [countSome]
    | succ j =>
      have hj : rest[j]? = some (some v) := by simpa using h
      have := ih j hj
      cases a <;> simp [countSome] <;> omega

theorem countSome_set_none (l : List (Option T)) (i : Nat) (v : T)
    (h : l[i]? = some (some v)) :
    countSome (l.set i none) + 1 = countSome l := by
  induction l generalizing i with
  | nil => simp at h
  | cons a rest ih =>
    cases i with
    | zero => simp at h; subst h; simp [countSome]
    | succ j =>
      have hj : rest[j]? = some (some v) := by simpa using h
      have := ih j hj
      cases a <;> simp [countSome, List.set] <;> omega

theorem set_none_id (l : List (Option T)) (i : Nat)
    (h : l[i]? = some none) : l.set i none = l := by
  induction l generalizing i with
  | nil => simp at h
  | cons a rest ih =>
    cases i with
    | zero => simp at h; simp [List.set, h]
    | succ j =>
      have hj : rest[j]? = some none := by simpa using h
      simp [List.set, ih j hj]

/-! ### Association-list (overflow map) lemmas -/

theorem mapGet_insert_self (m : List (Nat × T)) (k : Nat) (v : T) :
    mapGet (mapInsert m k v) k = some v := by
  induction m with
  | nil => simp [mapInsert, mapGet]
  | cons p rest ih =>
    by_cases h : p.1 = k <;> simp [mapInsert, mapGet, h, ih]

theorem mapGet_insert_ne (m : List (Nat × T)) (k : Nat) (v : T) (q : Nat) (h : q ≠ k) :
    mapGet (mapInsert m k v) q = mapGet m q := by
  induction m with
  | nil => simp [mapInsert, mapGet, Ne.symm h]
  | cons p rest ih =>
    by_cases hpk : p.1 = k
    · simp [mapInsert, mapGet, hpk, Ne.symm h]
    · simp [mapInsert, mapGet, hpk, ih]

theorem mapRemove_fst (m : List (Nat × T)) (k : Nat) :
    (mapRemove m k).1 = mapGet m k := by
  induction m with
  | nil => simp [mapRemove, mapGet]
  | cons p rest ih =>
    by_cases h : p.1 = k <;> simp [mapRemove, mapGet, h, ih]

theorem mapGet_mapRemove_ne (m : List (Nat × T)) (k q : Nat) (h : q ≠ k) :
    mapGet (mapRemove m k).2 q = mapGet m q := by
  induction m with
  | nil => simp [mapRemove]
  | cons p rest ih =>
    by_cases hpk : p.1 = k
    · simp [mapRemove, mapGet, hpk, Ne.symm h]
    · simp [mapRemove, mapGet, hpk, ih]

theorem mapRemove_of_get_none (m : List (Nat × T)) (k : Nat)
    (h : mapGet m k = none) : mapRemove m k = (none, m) := by
  induction m with
  | nil => simp [mapRemove]
  | cons p rest ih =>
    by_cases hpk : p.1 = k
    · simp [mapGet, hpk] at h
    · simp [mapGet, hpk] at h
      simp [mapRemove, hpk, ih h]

theorem mem_mapRemove (m : List (Nat × T)) (k : Nat) (p : Nat × T)
    (h : p ∈ (mapRemove m k).2) : p ∈ m := by
  induction m with
  | nil => simp [mapRemove] at h
  | cons q rest ih =>
    by_cases hqk : q.1 = k
    · simp [mapRemove, hqk] at h
      simp [h]
    · simp [mapRemove, hqk] at h
      rcases h with h | h
      · simp [h]
      · simp [ih h]

theorem mem_mapInsert (m : List (Nat × T)) (k : Nat) (v : T) (p : Nat × T)
    (h : p ∈ mapInsert m k v) : p = (k, v) ∨ p ∈ m := by
  induction m with
  | nil => simp [mapInsert] at h; simp [h]
  | cons q rest ih =>
    by_cases hqk : q.1 = k
    · simp [mapInsert, hqk] at h
      rcases h with h | h
      · simp [h]
      · simp [h]
    · simp [mapInsert, hqk] at h
      rcases h with h | h
      · simp [h]
      · rcases ih h with h' | h'
        · simp [h']
        · simp [h']

theorem mapGet_eq_none_of_forall (m : List (Nat × T)) (k : Nat)
    (h : ∀ p ∈ m, p.1 ≠ k) : mapGet m k = none := by
  induction m with
  | nil => simp [mapGet]
  | cons p rest ih =>
    have hp : p.1 ≠ k := h p (by simp)
    simp [mapGet, hp]
    exact ih fun q hq => h q (by simp [hq])

/-! ### Migration-insert lemmas -/

theorem mapGet_insertAll_lt (pref : List (Option T)) :
    ∀ (m : List (Nat × T)) (base q : Nat), q < base →
      mapGet (insertAll m base pref) q = mapGet m q := by
  induction pref with
  | nil => intro m base q _; simp [insertAll]
  | cons a rest ih =>
    intro m base q hq
    cases a with
    | none => simp [insertAll, ih m (base + 1) q (by omega)]
    | some v =>
      simp [insertAll, ih (mapInsert m base v) (base + 1) q (by omega)]
      exact mapGet_insert_ne m base v q (by omega)

theorem mapGet_insertAll_ge (pref : List (Option T)) :
    ∀ (m : List (Nat × T)) (base q : Nat), (∀ p ∈ m, p.1 < base) → base ≤ q →
      mapGet (insertAll m base pref) q = (pref[q - base]?).join := by
  induction pref with
  | nil =>
    intro m base q hm hq
    simp [insertAll]
    exact mapGet_eq_none_of_forall m q fun p hp => by have := hm p hp; omega
  | cons a rest ih =>
    intro m base q hm hq
    by_cases hqb : q = base
    · subst hqb
      cases a with
      | none =>
        simp [insertAll]
        rw [mapGet_insertAll_lt rest m (q + 1) q (by omega)]
        simp [mapGet_eq_none_of_forall m q fun p hp => by have := hm p hp; omega]
      | some v =>
        simp [insertAll]
        rw [mapGet_insertAll_lt rest (mapInsert m q v) (q + 1) q (by omega)]
        simp [mapGet_insert_self]
    · have hq1 : base + 1 ≤ q := by omega
      have hidx : q - base = (q - (base + 1)) + 1 := by omega
      cases a with
      | none =>
        simp only [insertAll]
        rw [ih m (base + 1) q (fun p hp => by have := hm p hp; omega) hq1, hidx]
        simp
      | some v =>
        simp only [insertAll]
        rw [ih (mapInsert m base v) (base + 1) q
            (fun p hp => by
              rcases mem_mapInsert m base v p hp with h | h
              · simp [h]
              · have := hm p h; omega)
            hq1,
          hidx]
        simp

theorem mem_insertAll (pref : List (Option T)) :
    ∀ (m : List (Nat × T)) (base : Nat) (p : Nat × T), p ∈ insertAll m base pref →
      p ∈ m ∨ (base ≤ p.1 ∧ p.1 < base + pref.length) := by
  induction pref with
  | nil => intro m base p h; simp [insertAll] at h; simp [h]
  | cons a rest ih =>
    intro m base p h
    cases a with
    | none =>
      rcases ih m (base + 1) p (by simpa [insertAll] using h) with h' | h'
      · simp [h']
      · right; simp; omega
    | some v =>
      rcases ih (mapInsert m base v) (base + 1) p (by simpa [insertAll] using h) with h' | h'
      · rcases mem_mapInsert m base v p h' with h'' | h''
        · right; simp [h'']
        · simp [h'']
      · right; simp; omega

/-! ### Compaction-loop lemmas -/

theorem compactGo_cons_some (fid olen : Nat) (x : T) (rest : List (Option T))
    (idx sc cnt : Nat) (m : List (Nat × T)) (nl : List (Option T)) (h : idx < sc) :
    compactGo fid olen (some x :: rest) idx sc cnt m nl =
      compactGo fid olen rest (idx + 1)
        (if idx = sc - 1 ∧ (cnt - 1) * 2 < olen - sc ∧ 32 < olen - sc
         then sc + (olen - sc) / 2 else sc)
        (cnt - 1) (mapInsert m (idx + fid) x) nl := by
  simp [compactGo, h]

theorem compactGo_cons_none (fid olen : Nat) (rest : List (Option T))
    (idx sc cnt : Nat) (m : List (Nat × T)) (nl : List (Option T)) (h : idx < sc) :
    compactGo fid olen (none :: rest) idx sc cnt m nl =
      compactGo fid olen rest (idx + 1)
        (if idx = sc - 1 ∧ cnt * 2 < olen - sc ∧ 32 < olen - sc
         then sc + (olen - sc) / 2 else sc)
        cnt m nl := by
  simp [compactGo, h]

theorem compactGo_phase2 (fid olen : Nat) (lst : List (Option T)) :
    ∀ (idx sc cnt : Nat) (m : List (Nat × T)) (nl : List (Option T)), sc ≤ idx →
      compactGo fid olen lst idx sc cnt m nl = (sc, cnt, m, nl ++ lst) := by
  induction lst with
  | nil => intro idx sc cnt m nl _; simp [compactGo]
  | cons v rest ih =>
    intro idx sc cnt m nl h
    have hlt : ¬ idx < sc := by omega
    simp only [compactGo, if_neg hlt]
    rw [ih (idx + 1) sc cnt m (nl ++ [v]) (by omega)]
    simp

theorem compactGo_spec (fid olen : Nat) (lst : List (Option T)) :
    ∀ (idx sc cnt : Nat) (m : List (Nat × T)) (nl : List (Option T)),
      idx < sc → sc < idx + lst.length → olen = idx + lst.length →
      ∃ k, 0 < k ∧ sc ≤ idx + k ∧ idx + k < olen ∧
        (17 ≤ olen - (idx + k) ∨ idx + k = sc) ∧
        compactGo fid olen lst idx sc cnt m nl =
          (idx + k, cnt - countSome (lst.take k), insertAll m (idx + fid) (lst.take k),
            nl ++ lst.drop k) ∧
        ¬((cnt - countSome (lst.take k)) * 2 < olen - (idx + k) ∧ 32 < olen - (idx + k)) := by
  induction lst with
  | nil => intro idx sc cnt m nl h1 h2 _; simp at h2; omega
  | cons v rest ih =>
    intro idx sc cnt m nl h1 h2 h3
    simp only [List.length_cons] at h2 h3
    cases v with
    | some x =>
      rw [compactGo_cons_some fid olen x rest idx sc cnt m nl h1]
      by_cases hC : idx = sc - 1 ∧ (cnt - 1) * 2 < olen - sc ∧ 32 < olen - sc
      · -- the adaptive extension fires at this boundary
        rw [if_pos hC]
        obtain ⟨k', hk0, hk1, hk2, hk3, heq, hneg⟩ :=
          ih (idx + 1) (sc + (olen - sc) / 2) (cnt - 1) (mapInsert m (idx + fid) x) nl
            (by omega) (by omega) (by omega)
        refine ⟨k' + 1, by omega, by omega, by omega, by rcases hk3 with h | h <;> omega,
          ?_, ?_⟩
        · rw [heq]
          have e1 : (idx + 1) + fid = (idx + fid) + 1 := by omega
          have e2 : (idx + 1) + k' = idx + (k' + 1) := by omega
          have e3 : (cnt - 1) - countSome (rest.take k')
              = cnt - countSome ((some x :: rest).take (k' + 1)) := by
            simp [countSome]; omega
          simp only [List.take_succ_cons, List.drop_succ_cons, insertAll, e1, e2, e3]
        · intro hcontra
          apply hneg
          have e2 : (idx + 1) + k' = idx + (k' + 1) := by omega
          have e3 : (cnt - 1) - countSome (rest.take k')
              = cnt - countSome ((some x :: rest).take (k' + 1)) := by
            simp [countSome]; omega
          rw [e2, e3]
          exact hcontra
      · rw [if_neg hC]
        by_cases hend : idx + 1 = sc
        · -- last slot of the retired region, extension did not fire
          refine ⟨1, by omega, by omega, by omega, by omega, ?_, ?_⟩
          · rw [compactGo_phase2 fid olen rest (idx + 1) sc (cnt - 1)
              (mapInsert m (idx + fid) x) nl (by omega)]
            simp only [List.take_succ_cons, List.take_zero, List.drop_succ_cons,
              List.drop_zero, insertAll, countSome]
            exact congrArg (fun z => (z, cnt - (0 + 1), mapInsert m (idx + fid) x, nl ++ rest))
              hend.symm
          · intro hcontra
            apply hC
            refine ⟨by omega, ?_, ?_⟩
            · have : cnt - countSome ((some x :: rest).take 1) = cnt - 1 := by
                simp [countSome]
              rw [← this]
              have e : olen - sc = olen - (idx + 1) := by omega
              rw [e]
              exact hcontra.1
            · have e : olen - sc = olen - (idx + 1) := by omega
              rw [e]
              exact hcontra.2
        · -- still inside the retired region
          obtain ⟨k', hk0, hk1, hk2, hk3, heq, hneg⟩ :=
            ih (idx + 1) sc (cnt - 1) (mapInsert m (idx + fid) x) nl
              (by omega) (by omega) (by omega)
          refine ⟨k' + 1, by omega, by omega, by omega, by rcases hk3 with h | h <;> omega,
            ?_, ?_⟩
          · rw [heq]
            have e1 : (idx + 1) + fid = (idx + fid) + 1 := by omega
            have e2 : (idx + 1) + k' = idx + (k' + 1) := by omega
            have e3 : (cnt - 1) - countSome (rest.take k')
                = cnt - countSome ((some x :: rest).take (k' + 1)) := by
              simp [countSome]; omega
            simp only [List.take_succ_cons, List.drop_succ_cons, insertAll, e1, e2, e3]
          · intro hcontra
            apply hneg
            have e2 : (idx + 1) + k' = idx + (k' + 1) := by omega
            have e3 : (cnt - 1) - countSome (rest.take k')
                = cnt - countSome ((some x :: rest).take (k' + 1)) := by
              simp [countSome]; omega
            rw [e2, e3]
            exact hcontra
    | none =>
      rw [compactGo_cons_none fid olen rest idx sc cnt m nl h1]
      by_cases hC : idx = sc - 1 ∧ cnt * 2 < olen - sc ∧ 32 < olen - sc
      · rw [if_pos hC]
        obtain ⟨k', hk0, hk1, hk2, hk3, heq, hneg⟩ :=
          ih (idx + 1) (sc + (olen - sc) / 2) cnt m nl (by omega) (by omega) (by omega)
        refine ⟨k' + 1, by omega, by omega, by omega, by rcases hk3 with h | h <;> omega,
          ?_, ?_⟩
        · rw [heq]
          have e1 : (idx + 1) + fid = (idx + fid) + 1 := by omega
          have e2 : (idx + 1) + k' = idx + (k' + 1) := by omega
          simp only [List.take_succ_cons, List.drop_succ_cons, insertAll, e1, e2, countSome]
        · intro hcontra
          apply hneg
          have e2 : (idx + 1) + k' = idx + (k' + 1) := by omega
          have e3 : countSome (rest.take k')
              = countSome ((none :: rest).take (k' + 1)) := by
            simp [countSome]
          rw [e2, e3]
          exact hcontra
      · rw [if_neg hC]
        by_cases hend : idx + 1 = sc
        · refine ⟨1, by omega, by omega, by omega, by omega, ?_, ?_⟩
          · rw [compactGo_phase2 fid olen rest (idx + 1) sc cnt m nl (by omega)]
            simp only [List.take_succ_cons, List.take_zero, List.drop_succ_cons,
              List.drop_zero, insertAll, countSome]
            exact congrArg (fun z => (z, cnt - 0, m, nl ++ rest)) hend.symm
          · intro hcontra
            apply hC
            refine ⟨by omega, ?_, ?_⟩
            · have : cnt - countSome ((none :: rest).take 1) = cnt := by
                simp [countSome]
              rw [← this]
              have e : olen - sc = olen - (idx + 1) := by omega
              rw [e]
              exact hcontra.1
            · have e : olen - sc = olen - (idx + 1) := by omega
              rw [e]
              exact hcontra.2
        · obtain ⟨k', hk0, hk1, hk2, hk3, heq, hneg⟩ :=
            ih (idx + 1) sc cnt m nl (by omega) (by omega) (by omega)
          refine ⟨k' + 1, by omega, by omega, by omega, by rcases hk3 with h | h <;> omega,
            ?_, ?_⟩
          · rw [heq]
            have e1 : (idx + 1) + fid = (idx + fid) + 1 := by omega
            have e2 : (idx + 1) + k' = idx + (k' + 1) := by omega
            simp only [List.take_succ_cons, List.drop_succ_cons, insertAll, e1, e2, countSome]
          · intro hcontra
            apply hneg
            have e2 : (idx + 1) + k' = idx + (k' + 1) := by omega
            have e3 : countSome (rest.take k')
                = countSome ((none :: rest).take (k' + 1)) := by
              simp [countSome]
            rw [e2, e3]
            exact hcontra

/-! ### Removal characterization -/

theorem remove_map_branch (s : ExpirationList T) (id : Nat) (h : id < s.first_id) :
    s.remove id = ((mapRemove s.map id).1, { s with map := (mapRemove s.map id).2 }) := by
  rcases hmr : mapRemove s.map id with ⟨r, m'⟩
  simp [ExpirationList.remove, h, hmr]

theorem remove_out_of_range (s : ExpirationList T) (id : Nat) (h : ¬ id < s.first_id)
    (h2 : s.list[id - s.first_id]? = none) : s.remove id = (none, s) := by
  simp [ExpirationList.remove, h, h2]

theorem remove_slot_none (s : ExpirationList T) (id : Nat) (h : ¬ id < s.first_id)
    (h2 : s.list[id - s.first_id]? = some none) : s.remove id = (none, s) := by
  simp [ExpirationList.remove, h, h2]
  rw [set_none_id s.list (id - s.first_id) h2]

theorem remove_no_compact (s : ExpirationList T) (id : Nat) (v : T) (h : ¬ id < s.first_id)
    (h2 : s.list[id - s.first_id]? = some (some v))
    (h3 : ¬ ((s.count - 1) * 2 < s.list.length ∧ 32 < s.list.length)) :
    s.remove id =
      (some v, ⟨s.first_id, s.count - 1, s.list.set (id - s.first_id) none, s.map⟩) := by
  simp [ExpirationList.remove, h, h2, h3]

theorem remove_compact_spec (s : ExpirationList T) (id : Nat) (v : T)
    (hge : ¬ id < s.first_id)
    (hslot : s.list[id - s.first_id]? = some (some v))
    (htrig : (s.count - 1) * 2 < s.list.length) (hlen : 32 < s.list.length) :
    ∃ k, 0 < k ∧ s.list.length / 2 ≤ k ∧ k < s.list.length ∧ 17 ≤ s.list.length - k ∧
      s.remove id = (some v,
        ⟨s.first_id + k,
         (s.count - 1) - countSome ((s.list.set (id - s.first_id) none).take k),
         (s.list.set (id - s.first_id) none).drop k,
         insertAll s.map s.first_id ((s.list.set (id - s.first_id) none).take k)⟩) ∧
      ¬(((s.count - 1) - countSome ((s.list.set (id - s.first_id) none).take k)) * 2
          < s.list.length - k ∧ 32 < s.list.length - k) := by
  have hlen1 : (s.list.set (id - s.first_id) none).length = s.list.length :=
    List.length_set s.list _ _
  obtain ⟨k, hk0, hk1, hk2, hk17, heq, hneg⟩ :=
    compactGo_spec s.first_id s.list.length (s.list.set (id - s.first_id) none)
      0 (s.list.length / 2) (s.count - 1) s.map []
      (by omega) (by rw [hlen1]; omega) (by rw [hlen1]; omega)
  simp only [Nat.zero_add, List.nil_append] at hk1 hk2 hk17 heq hneg
  refine ⟨k, by omega, hk1, hk2, by omega, ?_, by exact hneg⟩
  simp only [ExpirationList.remove, if_neg hge, hslot]
  simp only [List.length_set]
  rw [if_pos ⟨htrig, hlen⟩]
  rw [heq]

/-! ### Structural invariant -/

theorem WF_new : WF (ExpirationList.new (T := T)) := by
  constructor <;> simp [ExpirationList.new, countSome]

theorem WF_add (s : ExpirationList T) (hWF : WF s) (v : T) : WF (s.add v).2 := by
  obtain ⟨hc, hm⟩ := hWF
  constructor
  · simp [ExpirationList.add, countSome_append, countSome, hc]
  · intro p hp
    exact hm p hp

theorem WF_remove (s : ExpirationList T) (hWF : WF s) (id : Nat) : WF (s.remove id).2 := by
  obtain ⟨hc, hm⟩ := hWF
  by_cases hlt : id < s.first_id
  · rw [remove_map_branch s id hlt]
    refine ⟨hc, ?_⟩
    intro p hp
    exact hm p (mem_mapRemove s.map id p hp)
  · cases hsl : s.list[id - s.first_id]? with
    | none => rw [remove_out_of_range s id hlt hsl]; exact ⟨hc, hm⟩
    | some slot =>
      cases slot with
      | none => rw [remove_slot_none s id hlt hsl]; exact ⟨hc, hm⟩
      | some v =>
        have hset : countSome (s.list.set (id - s.first_id) none) + 1 = countSome s.list :=
          countSome_set_none s.list _ v hsl
        by_cases htr : (s.count - 1) * 2 < s.list.length ∧ 32 < s.list.length
        · obtain ⟨k, hk0, hk1, hk2, hk17, heq, _⟩ :=
            remove_compact_spec s id v hlt hsl htr.1 htr.2
          rw [heq]
          constructor
          · have hsplit :
                countSome ((s.list.set (id - s.first_id) none).take k)
                  + countSome ((s.list.set (id - s.first_id) none).drop k)
                  = countSome (s.list.set (id - s.first_id) none) :=
              countSome_take_add_drop _ k
            simp only
            omega
          · intro p hp
            simp only at hp ⊢
            rcases mem_insertAll _ s.map s.first_id p hp with h' | h'
            · have := hm p h'; omega
            · have hlen2 : ((s.list.set (id - s.first_id) none).take k).length = k := by
                simp [List.length_set]
                omega
              rw [hlen2] at h'
              omega
        · rw [remove_no_compact s id v hlt hsl htr]
          exact ⟨by simp only; omega, hm⟩

theorem WF_runOp (s : ExpirationList T) (hWF : WF s) (op : Op T) : WF (runOp s op) := by
  cases op with
  | add v => exact WF_add s hWF v
  | del id => exact WF_remove s hWF id

theorem WF_foldl (ops : List (Op T)) :
    ∀ s : ExpirationList T, WF s → WF (ops.foldl runOp s) := by
  induction ops with
  | nil => intro s h; exact h
  | cons op rest ih => intro s h; exact ih (runOp s op) (WF_runOp s h op)

theorem WF_run (ops : List (Op T)) : WF (run ops) :=
  WF_foldl ops ExpirationList.new WF_new

/-! ### Lookup lemmas -/

theorem add_snd (s : ExpirationList T) (v : T) :
    (s.add v).2 = ⟨s.first_id, s.count + 1, s.list ++ [some v], s.map⟩ := rfl

theorem add_fst (s : ExpirationList T) (v : T) :
    (s.add v).1 = s.first_id + s.list.length := by
  simp only [ExpirationList.add, List.length_append, List.length_cons, List.length_nil]
  omega

theorem get_dense (s : ExpirationList T) (id : Nat) (v : T) (hlt : ¬ id < s.first_id)
    (h : s.get id = some v) : s.list[id - s.first_id]? = some (some v) := by
  simp only [ExpirationList.get, if_neg hlt] at h
  cases ho : s.list[id - s.first_id]? with
  | none => rw [ho] at h; simp [Option.join] at h
  | some o =>
    rw [ho] at h
    cases o with
    | none => simp [Option.join] at h
    | some x => simp [Option.join] at h; rw [h]

theorem get_add_self (s : ExpirationList T) (v : T) :
    (s.add v).2.get (s.add v).1 = some v := by
  rw [add_snd, add_fst]
  simp only [ExpirationList.get]
  rw [if_neg (by omega)]
  have hidx : s.first_id + s.list.length - s.first_id = s.list.length := by omega
  rw [hidx, List.getElem?_append, if_neg (by omega)]
  simp

theorem get_add_other (s : ExpirationList T) (id : Nat) (v w : T)
    (h : s.get id = some v) : (s.add w).2.get id = some v := by
  rw [add_snd]
  by_cases hlt : id < s.first_id
  · simp only [ExpirationList.get, if_pos hlt] at h ⊢
    exact h
  · have hs : s.list[id - s.first_id]? = some (some v) := get_dense s id v hlt h
    have hlt2 : id - s.first_id < s.list.length := by
      by_contra hge
      rw [List.getElem?_eq_none_iff.mpr (by omega)] at hs
      simp at hs
    simp only [ExpirationList.get, if_neg hlt]
    rw [List.getElem?_append, if_pos hlt2, hs]
    simp [Option.join]

theorem get_remove_fst (s : ExpirationList T) (id : Nat) (v : T)
    (h : s.get id = some v) : (s.remove id).1 = some v := by
  by_cases hlt : id < s.first_id
  · rw [remove_map_branch s id hlt]
    simp only
    rw [mapRemove_fst]
    simpa [ExpirationList.get, hlt] using h
  · have hs : s.list[id - s.first_id]? = some (some v) := get_dense s id v hlt h
    by_cases htr : (s.count - 1) * 2 < s.list.length ∧ 32 < s.list.length
    · obtain ⟨k, _, _, _, _, heq, _⟩ := remove_compact_spec s id v hlt hs htr.1 htr.2
      rw [heq]
    · rw [remove_no_compact s id v hlt hs htr]

theorem get_remove_other (s : ExpirationList T)
    (hm : ∀ p ∈ s.map, p.1 < s.first_id) (id id' : Nat) (hne : id ≠ id') :
    (s.remove id').2.get id = s.get id := by
  by_cases hlt' : id' < s.first_id
  · rw [remove_map_branch s id' hlt']
    simp only [ExpirationList.get]
    by_cases hlt : id < s.first_id
    · rw [if_pos hlt, if_pos hlt]
      exact mapGet_mapRemove_ne s.map id' id hne
    · rw [if_neg hlt, if_neg hlt]
  · cases hsl : s.list[id' - s.first_id]? with
    | none => rw [remove_out_of_range s id' hlt' hsl]
    | some slot =>
      cases slot with
      | none => rw [remove_slot_none s id' hlt' hsl]
      | some v =>
        have hidne : id' - s.first_id ≠ id - s.first_id ∨ id < s.first_id := by omega
        by_cases htr : (s.count - 1) * 2 < s.list.length ∧ 32 < s.list.length
        · obtain ⟨k, hk0, hk1, hk2, hk17, heq, _⟩ :=
            remove_compact_spec s id' v hlt' hsl htr.1 htr.2
          rw [heq]
          simp only [ExpirationList.get]
          by_cases hlt : id < s.first_id
          · rw [if_pos (by omega : id < s.first_id + k), if_pos hlt]
            exact mapGet_insertAll_lt _ s.map s.first_id id hlt
          · by_cases hmid : id < s.first_id + k
            · rw [if_pos hmid, if_neg hlt]
              rw [mapGet_insertAll_ge ((s.list.set (id' - s.first_id) none).take k)
                s.map s.first_id id hm (by omega)]
              rw [List.getElem?_take, if_pos (by omega)]
              rw [List.getElem?_set_ne (by omega)]
            · rw [if_neg hmid, if_neg hlt]
              rw [List.getElem?_drop]
              have hplus : k + (id - (s.first_id + k)) = id - s.first_id := by omega
              rw [hplus, List.getElem?_set_ne (by omega)]
        · rw [remove_no_compact s id' v hlt' hsl htr]
          simp only [ExpirationList.get]
          by_cases hlt : id < s.first_id
          · rw [if_pos hlt, if_pos hlt]
          · rw [if_neg hlt, if_neg hlt]
            rw [List.getElem?_set_ne (by omega)]

/-! ### Identifier-space lemmas -/

theorem nextId_add (s : ExpirationList T) (v : T) :
    nextId (s.add v).2 = nextId s + 1 := by
  rw [add_snd]
  simp [nextId]
  omega

theorem nextId_remove (s : ExpirationList T) (id : Nat) :
    nextId (s.remove id).2 = nextId s := by
  by_cases hlt : id < s.first_id
  · rw [remove_map_branch s id hlt]
    simp [nextId]
  · cases hsl : s.list[id - s.first_id]? with
    | none => rw [remove_out_of_range s id hlt hsl]
    | some slot =>
      cases slot with
      | none => rw [remove_slot_none s id hlt hsl]
      | some v =>
        by_cases htr : (s.count - 1) * 2 < s.list.length ∧ 32 < s.list.length
        · obtain ⟨k, hk0, hk1, hk2, hk17, heq, _⟩ :=
            remove_compact_spec s id v hlt hsl htr.1 htr.2
          rw [heq]
          simp only [nextId, List.length_drop, List.length_set]
          omega
        · rw [remove_no_compact s id v hlt hsl htr]
          simp [nextId]

theorem nextId_runOp (s : ExpirationList T) (op : Op T) :
    nextId s ≤ nextId (runOp s op) := by
  cases op with
  | add v => rw [runOp, nextId_add]; omega
  | del id => rw [runOp, nextId_remove]

theorem nextId_foldl (ops : List (Op T)) :
    ∀ s : ExpirationList T, nextId s ≤ nextId (ops.foldl runOp s) := by
  induction ops with
  | nil => intro s; exact Nat.le_refl _
  | cons op rest ih =>
    intro s
    exact Nat.le_trans (nextId_runOp s op) (ih (runOp s op))

/-! ### Iterator lemmas -/

theorem listNext_length (l : List (Option T)) :
    ∀ (i : Nat) (r : (Nat × T) × (List (Option T) × Nat)), listNext l i = some r →
      r.2.1.length < l.length := by
  induction l with
  | nil => intro i r h; simp [listNext] at h
  | cons a t ih =>
    intro i r h
    cases a with
    | none =>
      have := ih (i + 1) r (by simpa [listNext] using h)
      simp only [List.length_cons]
      omega
    | some v =>
      simp only [listNext, Option.some.injEq] at h
      rw [← h]
      simp only [List.length_cons]
      omega

theorem next_measure (it it' : ExpirationListIterator T) (p : Nat × T)
    (h : it.next = some (p, it')) : iterMeasure it' < iterMeasure it := by
  obtain ⟨mi, li, idn⟩ := it
  cases mi with
  | some mlist =>
    cases mlist with
    | cons hd tl =>
      obtain ⟨k, v⟩ := hd
      simp only [ExpirationListIterator.next, Option.some.injEq] at h
      injection h with h1 h2
      rw [← h2]
      simp [iterMeasure]
    | nil =>
      simp only [ExpirationListIterator.next] at h
      cases hln : listNext li idn with
      | none => rw [hln] at h; simp at h
      | some r =>
        rw [hln] at h
        obtain ⟨q, rest, i'⟩ := r
        simp only [Option.some.injEq] at h
        have hlen := listNext_length li idn (q, rest, i') hln
        injection h with h1 h2
        rw [← h2]
        simp only [iterMeasure] at *
        omega
  | none =>
    simp only [ExpirationListIterator.next] at h
    cases hln : listNext li idn with
    | none => rw [hln] at h; simp at h
    | some r =>
      rw [hln] at h
      obtain ⟨q, rest, i'⟩ := r
      simp only [Option.some.injEq] at h
      have hlen := listNext_length li idn (q, rest, i') hln
      injection h with h1 h2
      rw [← h2]
      simp only [iterMeasure] at *
      omega

theorem next_none_of_measure_zero (it : ExpirationListIterator T)
    (h : iterMeasure it = 0) : it.next = none := by
  obtain ⟨mi, li, idn⟩ := it
  cases mi with
  | some m => simp [iterMeasure] at h
  | none =>
    cases li with
    | nil => simp [ExpirationListIterator.next, listNext]
    | cons a t => simp [iterMeasure] at h

theorem drainFuel_eq_of_le (f₁ : Nat) :
    ∀ (f₂ : Nat) (it : ExpirationListIterator T), iterMeasure it ≤ f₁ → iterMeasure it ≤ f₂ →
      drainFuel f₁ it = drainFuel f₂ it := by
  induction f₁ with
  | zero =>
    intro f₂ it h1 h2
    have hnone : it.next = none := next_none_of_measure_zero it (by omega)
    cases f₂ with
    | zero => rfl
    | succ f => simp [drainFuel, hnone]
  | succ f ih =>
    intro f₂ it h1 h2
    cases f₂ with
    | zero =>
      have hnone : it.next = none := next_none_of_measure_zero it (by omega)
      simp [drainFuel, hnone]
    | succ f' =>
      cases hn : it.next with
      | none => simp [drainFuel, hn]
      | some pr =>
        obtain ⟨p, it'⟩ := pr
        have hd := next_measure it it' p hn
        simp only [drainFuel, hn]
        rw [ih f' it' (by omega) (by omega)]

theorem drain_next_some (it it' : ExpirationListIterator T) (p : Nat × T)
    (h : it.next = some (p, it')) : drain it = p :: drain it' := by
  have hd := next_measure it it' p h
  unfold drain
  cases hm : iterMeasure it with
  | zero => rw [next_none_of_measure_zero it hm] at h; simp at h
  | succ n =>
    simp only [drainFuel, h]
    rw [drainFuel_eq_of_le n (iterMeasure it') it' (by omega) (Nat.le_refl _)]

theorem drain_next_none (it : ExpirationListIterator T) (h : it.next = none) :
    drain it = [] := by
  unfold drain
  cases hm : iterMeasure it with
  | zero => rfl
  | succ n => simp [drainFuel, h]

theorem drain_congr (it₁ it₂ : ExpirationListIterator T) (h : it₁.next = it₂.next) :
    drain it₁ = drain it₂ := by
  cases hn : it₂.next with
  | none => rw [drain_next_none it₁ (h.trans hn), drain_next_none it₂ hn]
  | some pr =>
    obtain ⟨p, it'⟩ := pr
    rw [drain_next_some it₁ it' p (by rw [h, hn]), drain_next_some it₂ it' p hn]

theorem drain_map_phase (mrest : List (Nat × T)) :
    ∀ (l : List (Option T)) (i : Nat),
      drain ⟨some mrest, l, i⟩ = mrest ++ drain ⟨none, l, i⟩ := by
  induction mrest with
  | nil =>
    intro l i
    simp only [List.nil_append]
    exact drain_congr _ _ rfl
  | cons hd tl ih =>
    intro l i
    obtain ⟨k, v⟩ := hd
    rw [drain_next_some ⟨some ((k, v) :: tl), l, i⟩ ⟨some tl, l, i⟩ (k, v) rfl]
    rw [ih l i]
    simp

theorem drain_list_phase (l : List (Option T)) :
    ∀ i : Nat, drain ⟨none, l, i⟩ = drainL l i := by
  induction l with
  | nil => intro i; exact drain_next_none _ rfl
  | cons a t ih =>
    intro i
    cases a with
    | none =>
      rw [drain_congr ⟨none, none :: t, i⟩ ⟨none, t, i + 1⟩ rfl]
      rw [ih (i + 1)]
      simp [drainL]
    | some v =>
      rw [drain_next_some ⟨none, some v :: t, i⟩ ⟨none, t, i + 1⟩ (i, v) rfl]
      rw [ih (i + 1)]
      simp [drainL]

theorem drain_intoIter (s : ExpirationList T) :
    drain (intoIter s) = s.map ++ drainL s.list s.first_id := by
  show drain ⟨some s.map, s.list, s.first_id⟩ = s.map ++ drainL s.list s.first_id
  rw [drain_map_phase s.map s.list s.first_id, drain_list_phase s.list s.first_id]

theorem drainL_eq_enumFrom (l : List (Option T)) :
    ∀ i : Nat,
      drainL l i = (l.enumFrom i).filterMap (fun p => p.2.map (fun v => (p.1, v))) := by
  induction l with
  | nil => intro i; simp [drainL]
  | cons a t ih =>
    intro i
    cases a with
    | none => simp [drainL, List.enumFrom_cons, ih (i + 1)]
    | some v => simp [drainL, List.enumFrom_cons, ih (i + 1)]

theorem mem_drainL_le (l : List (Option T)) :
    ∀ (i : Nat) (p : Nat × T), p ∈ drainL l i → i ≤ p.1 := by
  induction l with
  | nil => intro i p h; simp [drainL] at h
  | cons a t ih =>
    intro i p h
    cases a with
    | none =>
      have := ih (i + 1) p (by simpa [drainL] using h)
      omega
    | some v =>
      simp only [drainL, List.mem_cons] at h
      rcases h with h | h
      · simp [h]
      · have := ih (i + 1) p h
        omega

theorem drainL_pairwise (l : List (Option T)) :
    ∀ i : Nat, (drainL l i).Pairwise (fun a b => a.1 < b.1) := by
  induction l with
  | nil => intro i; simp [drainL]
  | cons a t ih =>
    intro i
    cases a with
    | none => simpa [drainL] using ih (i + 1)
    | some v =>
      simp only [drainL]
      refine List.Pairwise.cons ?_ (ih (i + 1))
      intro b hb
      have := mem_drainL_le t (i + 1) b hb
      simp only
      omega

/-! ### Checked-subtraction lemmas -/

theorem compactGo_cons_ge (fid olen : Nat) (v : Option T) (rest : List (Option T))
    (idx sc cnt : Nat) (m : List (Nat × T)) (nl : List (Option T)) (h : ¬ idx < sc) :
    compactGo fid olen (v :: rest) idx sc cnt m nl =
      compactGo fid olen rest (idx + 1) sc cnt m (nl ++ [v]) := by
  simp [compactGo, h]

theorem compactGoChk_cons_some (fid olen : Nat) (x : T) (rest : List (Option T))
    (idx sc cnt : Nat) (m : List (Nat × T)) (nl : List (Option T))
    (h : idx < sc) (hcnt : 0 < cnt) (hb : 16 ≤ sc ∧ sc ≤ olen) :
    compactGoChk fid olen (some x :: rest) idx sc cnt m nl =
      compactGoChk fid olen rest (idx + 1)
        (if idx = sc - 1 ∧ (cnt - 1) * 2 < olen - sc ∧ 32 < olen - sc
         then sc + (olen - sc) / 2 else sc)
        (cnt - 1) (mapInsert m (idx + fid) x) nl := by
  simp [compactGoChk, h, hcnt, hb]

theorem compactGoChk_cons_none (fid olen : Nat) (rest : List (Option T))
    (idx sc cnt : Nat) (m : List (Nat × T)) (nl : List (Option T))
    (h : idx < sc) (hb : 16 ≤ sc ∧ sc ≤ olen) :
    compactGoChk fid olen (none :: rest) idx sc cnt m nl =
      compactGoChk fid olen rest (idx + 1)
        (if idx = sc - 1 ∧ cnt * 2 < olen - sc ∧ 32 < olen - sc
         then sc + (olen - sc) / 2 else sc)
        cnt m nl := by
  simp [compactGoChk, h, hb]

theorem compactGoChk_cons_ge (fid olen : Nat) (v : Option T) (rest : List (Option T))
    (idx sc cnt : Nat) (m : List (Nat × T)) (nl : List (Option T)) (h : ¬ idx < sc) :
    compactGoChk fid olen (v :: rest) idx sc cnt m nl =
      compactGoChk fid olen rest (idx + 1) sc cnt m (nl ++ [v]) := by
  simp [compactGoChk, h]

theorem compactGoChk_eq (fid olen : Nat) (lst : List (Option T)) :
    ∀ (idx sc cnt : Nat) (m : List (Nat × T)) (nl : List (Option T)),
      16 ≤ sc → sc ≤ olen → countSome lst ≤ cnt →
      compactGoChk fid olen lst idx sc cnt m nl
        = some (compactGo fid olen lst idx sc cnt m nl) := by
  induction lst with
  | nil => intro idx sc cnt m nl _ _ _; simp [compactGoChk, compactGo]
  | cons v rest ih =>
    intro idx sc cnt m nl h16 hso hcs
    by_cases hidx : idx < sc
    · cases v with
      | some x =>
        have hcur : countSome rest + 1 ≤ cnt := by simpa [countSome] using hcs
        have hcnt : 0 < cnt := by omega
        rw [compactGo_cons_some fid olen x rest idx sc cnt m nl hidx,
          compactGoChk_cons_some fid olen x rest idx sc cnt m nl hidx hcnt ⟨h16, hso⟩]
        exact ih (idx + 1) _ (cnt - 1) (mapInsert m (idx + fid) x) nl
          (by split <;> omega) (by split <;> omega) (by omega)
      | none =>
        have hcur : countSome rest ≤ cnt := by simpa [countSome] using hcs
        rw [compactGo_cons_none fid olen rest idx sc cnt m nl hidx,
          compactGoChk_cons_none fid olen rest idx sc cnt m nl hidx ⟨h16, hso⟩]
        exact ih (idx + 1) _ cnt m nl (by split <;> omega) (by split <;> omega) hcur
    · have hcur : countSome rest ≤ cnt := by
        cases v <;> simp [countSome] at hcs <;> omega
      rw [compactGo_cons_ge fid olen v rest idx sc cnt m nl hidx,
        compactGoChk_cons_ge fid olen v rest idx sc cnt m nl hidx]
      exact ih (idx + 1) sc cnt m (nl ++ [v]) h16 hso hcur

theorem removeChk_eq (s : ExpirationList T) (hWF : WF s) (id : Nat) :
    removeChk s id = some (s.remove id) := by
  obtain ⟨hc, hm⟩ := hWF
  by_cases hlt : id < s.first_id
  · rcases hmr : mapRemove s.map id with ⟨r, m'⟩
    simp [removeChk, ExpirationList.remove, hlt, hmr]
  · cases hsl : s.list[id - s.first_id]? with
    | none => simp [removeChk, ExpirationList.remove, hlt, hsl]
    | some slot =>
      cases slot with
      | none => simp [removeChk, ExpirationList.remove, hlt, hsl]
      | some v =>
        have hpos : 0 < s.count := hc ▸ countSome_pos s.list _ v hsl
        have hset : countSome (s.list.set (id - s.first_id) none) + 1 = countSome s.list :=
          countSome_set_none s.list _ v hsl
        by_cases htr : (s.count - 1) * 2 < s.list.length ∧ 32 < s.list.length
        · have hchk := compactGoChk_eq s.first_id s.list.length
            (s.list.set (id - s.first_id) none) 0 (s.list.length / 2) (s.count - 1)
            s.map [] (by omega) (by omega) (by omega)
          rcases hgo : compactGo s.first_id s.list.length (s.list.set (id - s.first_id) none)
              0 (s.list.length / 2) (s.count - 1) s.map [] with ⟨scF, cntF, mF, nlF⟩
          rw [hgo] at hchk
          simp only [removeChk, ExpirationList.remove, if_neg hlt, hsl, List.length_set]
          rw [if_pos hpos, if_pos htr, if_pos htr, hchk, hgo]
        · simp only [removeChk, ExpirationList.remove, if_neg hlt, hsl, List.length_set]
          rw [if_pos hpos, if_neg htr, if_neg htr]

/-! ### Splitting runs of consecutive operations -/

theorem foldl_split_flatMap (a m n : Nat) (f : Nat → List (Op T))
    (s t u : ExpirationList T)
    (h1 : ((List.range' a m).flatMap f).foldl runOp s = t)
    (h2 : ((List.range' (a + m) n).flatMap f).foldl runOp t = u) :
    ((List.range' a (m + n)).flatMap f).foldl runOp s = u := by
  have h := List.range'_append a m n 1
  simp only [Nat.one_mul] at h
  rw [Nat.add_comm m n, ← h, List.flatMap_append, List.foldl_append, h1, h2]

theorem foldl_split_map (a m n : Nat) (g : Nat → Op T)
    (s t u : ExpirationList T)
    (h1 : ((List.range' a m).map g).foldl runOp s = t)
    (h2 : ((List.range' (a + m) n).map g).foldl runOp t = u) :
    ((List.range' a (m + n)).map g).foldl runOp s = u := by
  have h := List.range'_append a m n 1
  simp only [Nat.one_mul] at h
  rw [Nat.add_comm m n, ← h, List.map_append, List.foldl_append, h1, h2]

/-! ### List splicing lemmas for the scenario proofs -/

theorem getElem?_append_length' {α : Type} (A : List α) (x : α) (C : List α) :
    (A ++ x :: C)[A.length]? = some x := by
  induction A with
  | nil => simp
  | cons a t ih => simpa using ih

theorem set_append_length {α : Type} (A : List α) (x : α) (C : List α) (y : α) :
    (A ++ x :: C).set A.length y = A ++ y :: C := by
  induction A with
  | nil => simp
  | cons a t ih => simpa [List.set] using ih

/-! ### The FIFO churn cycle -/

theorem cycleA (fid L : Nat) (hL : L < 32) :
    runOp (runOp (⟨fid, 0, List.replicate L none, []⟩ : ExpirationList Nat)
        (Op.add (fid + L))) (Op.del (fid + L))
      = ⟨fid, 0, List.replicate (L + 1) none, []⟩ := by
  have hadd : runOp (⟨fid, 0, List.replicate L none, []⟩ : ExpirationList Nat)
      (Op.add (fid + L)) = ⟨fid, 1, List.replicate L none ++ [some (fid + L)], []⟩ := rfl
  rw [hadd]
  show ((⟨fid, 1, List.replicate L none ++ [some (fid + L)], []⟩ :
      ExpirationList Nat).remove (fid + L)).2 = _
  have hidx : fid + L - fid = L := by omega
  have hslot : (List.replicate L (none : Option Nat)
      ++ [some (fid + L)])[fid + L - fid]? = some (some (fid + L)) := by
    rw [hidx]
    have := List.getElem?_concat_length (List.replicate L (none : Option Nat)) (some (fid + L))
    simpa using this
  have hnc := remove_no_compact
      (⟨fid, 1, List.replicate L none ++ [some (fid + L)], []⟩ : ExpirationList Nat)
      (fid + L) (fid + L) (by simp only; omega) hslot
      (by simp only [List.length_append, List.length_replicate, List.length_cons,
            List.length_nil]
          omega)
  rw [hnc]
  have hset : (List.replicate L (none : Option Nat) ++ [some (fid + L)]).set (fid + L - fid) none
      = List.replicate (L + 1) none := by
    rw [hidx]
    have h1 := set_append_length (List.replicate L (none : Option Nat)) (some (fid + L)) [] none
    rw [List.length_replicate] at h1
    rw [h1, ← List.replicate_succ']
  simp only [hset]

theorem compactGo_allNone33 (fid : Nat) :
    compactGo fid 33 (List.replicate 33 (none : Option Nat)) 0 16 0 [] []
      = (16, 0, [], List.replicate 17 none) := by
  simp [compactGo, List.replicate]

theorem remove_compact_unfold (s : ExpirationList T) (id : Nat) (v : T) (h : ¬ id < s.first_id)
    (h2 : s.list[id - s.first_id]? = some (some v))
    (h3 : (s.count - 1) * 2 < s.list.length ∧ 32 < s.list.length) :
    s.remove id =
      (match compactGo s.first_id s.list.length (s.list.set (id - s.first_id) none) 0
          (s.list.length / 2) (s.count - 1) s.map [] with
        | (scF, cntF, mF, nlF) => (some v, ⟨s.first_id + scF, cntF, nlF, mF⟩)) := by
  simp [ExpirationList.remove, h, h2, List.length_set, h3]

theorem cycleB (fid : Nat) :
    runOp (runOp (⟨fid, 0, List.replicate 32 none, []⟩ : ExpirationList Nat)
        (Op.add (fid + 32))) (Op.del (fid + 32))
      = ⟨fid + 16, 0, List.replicate 17 none, []⟩ := by
  have hadd : runOp (⟨fid, 0, List.replicate 32 none, []⟩ : ExpirationList Nat)
      (Op.add (fid + 32)) = ⟨fid, 1, List.replicate 32 none ++ [some (fid + 32)], []⟩ := rfl
  rw [hadd]
  show ((⟨fid, 1, List.replicate 32 none ++ [some (fid + 32)], []⟩ :
      ExpirationList Nat).remove (fid + 32)).2 = _
  have hidx : fid + 32 - fid = 32 := by omega
  have hslot : (List.replicate 32 (none : Option Nat)
      ++ [some (fid + 32)])[fid + 32 - fid]? = some (some (fid + 32)) := by
    rw [hidx]
    have := List.getElem?_concat_length (List.replicate 32 (none : Option Nat)) (some (fid + 32))
    simpa using this
  have hset : (List.replicate 32 (none : Option Nat)
      ++ [some (fid + 32)]).set (fid + 32 - fid) none = List.replicate 33 none := by
    rw [hidx]
    have h1 := set_append_length (List.replicate 32 (none : Option Nat)) (some (fid + 32)) [] none
    rw [List.length_replicate] at h1
    rw [h1, ← List.replicate_succ']
  have hcu := remove_compact_unfold
      (⟨fid, 1, List.replicate 32 none ++ [some (fid + 32)], []⟩ : ExpirationList Nat)
      (fid + 32) (fid + 32) (by simp only; omega) hslot
      (by simp only [List.length_append, List.length_replicate, List.length_cons,
            List.length_nil]
          omega)
  rw [hcu]
  simp only [hset, List.length_append, List.length_replicate, List.length_cons, List.length_nil]
  norm_num
  rw [compactGo_allNone33 fid]
  simp

theorem cycleA_drive (n : Nat) :
    ∀ (fid L : Nat), L + n ≤ 32 →
      ((List.range' (fid + L) n).flatMap (fun i => [Op.add i, Op.del i])).foldl runOp
        (⟨fid, 0, List.replicate L none, []⟩ : ExpirationList Nat)
      = ⟨fid, 0, List.replicate (L + n) none, []⟩ := by
  induction n with
  | zero => intro fid L _; simp [List.range']
  | succ n ih =>
    intro fid L h
    rw [List.range'_succ, List.flatMap_cons, List.foldl_append]
    have hstep : ([Op.add (fid + L), Op.del (fid + L)] : List (Op Nat)).foldl runOp
        ⟨fid, 0, List.replicate L none, []⟩ = ⟨fid, 0, List.replicate (L + 1) none, []⟩ := by
      simp only [List.foldl_cons, List.foldl_nil]
      exact cycleA fid L (by omega)
    rw [hstep]
    have harg : fid + L + 1 = fid + (L + 1) := by omega
    rw [harg, ih fid (L + 1) (by omega)]
    have : L + 1 + n = L + (n + 1) := by omega
    rw [this]

theorem churn_one (fid : Nat) :
    ((List.range' (fid + 32) 1).flatMap (fun i => [Op.add i, Op.del i])).foldl runOp
      (⟨fid, 0, List.replicate 32 none, []⟩ : ExpirationList Nat)
      = ⟨fid + 16, 0, List.replicate 17 none, []⟩ := by
  simp only [List.range'_one, List.flatMap_cons, List.flatMap_nil, List.append_nil,
    List.foldl_cons, List.foldl_nil]
  exact cycleB fid

theorem churn_super (fid : Nat) :
    ((List.range' (fid + 17) 16).flatMap (fun i => [Op.add i, Op.del i])).foldl runOp
      (⟨fid, 0, List.replicate 17 none, []⟩ : ExpirationList Nat)
      = ⟨fid + 16, 0, List.replicate 17 none, []⟩ := by
  have h1 := cycleA_drive 15 fid 17 (by omega)
  have h2 : ((List.range' (fid + 17 + 15) 1).flatMap (fun i => [Op.add i, Op.del i])).foldl
      runOp (⟨fid, 0, List.replicate 32 none, []⟩ : ExpirationList Nat)
      = ⟨fid + 16, 0, List.replicate 17 none, []⟩ := by
    have e : fid + 17 + 15 = fid + 32 := by omega
    rw [e]
    exact churn_one fid
  exact foldl_split_flatMap (fid + 17) 15 1 _ _ _ _ h1 h2

theorem churn_super_iter (q : Nat) :
    ∀ fid : Nat,
      ((List.range' (fid + 17) (16 * q)).flatMap (fun i => [Op.add i, Op.del i])).foldl runOp
        (⟨fid, 0, List.replicate 17 none, []⟩ : ExpirationList Nat)
      = ⟨fid + 16 * q, 0, List.replicate 17 none, []⟩ := by
  induction q with
  | zero => intro fid; simp [List.range']
  | succ q ih =>
    intro fid
    have e1 : 16 * (q + 1) = 16 + 16 * q := by omega
    rw [e1]
    have h2 : ((List.range' (fid + 17 + 16) (16 * q)).flatMap
        (fun i => [Op.add i, Op.del i])).foldl runOp
        (⟨fid + 16, 0, List.replicate 17 none, []⟩ : ExpirationList Nat)
      = ⟨fid + (16 + 16 * q), 0, List.replicate 17 none, []⟩ := by
      have h := ih (fid + 16)
      have e2 : fid + 16 + 17 = fid + 17 + 16 := by omega
      have e3 : fid + 16 + 16 * q = fid + (16 + 16 * q) := by omega
      rw [e2, e3] at h
      exact h
    exact foldl_split_flatMap (fid + 17) 16 (16 * q) _ _ _ _ (churn_super fid) h2

theorem churn_main :
    ((List.range' 0 10000).flatMap (fun i => [Op.add i, Op.del i])).foldl runOp
      (⟨0, 0, [], []⟩ : ExpirationList Nat) = ⟨9968, 0, List.replicate 32 none, []⟩ := by
  have h1 : ((List.range' 0 33).flatMap (fun i => [Op.add i, Op.del i])).foldl runOp
      (⟨0, 0, [], []⟩ : ExpirationList Nat) = ⟨16, 0, List.replicate 17 none, []⟩ := by
    have ha := cycleA_drive 32 0 0 (by omega)
    have hb : ((List.range' (0 + 32) 1).flatMap (fun i => [Op.add i, Op.del i])).foldl runOp
        (⟨0, 0, List.replicate 32 none, []⟩ : ExpirationList Nat)
        = ⟨16, 0, List.replicate 17 none, []⟩ := churn_one 0
    exact foldl_split_flatMap 0 32 1 _ _ _ _ ha hb
  have h2 : ((List.range' 33 9952).flatMap (fun i => [Op.add i, Op.del i])).foldl runOp
      (⟨16, 0, List.replicate 17 none, []⟩ : ExpirationList Nat)
      = ⟨9968, 0, List.replicate 17 none, []⟩ := churn_super_iter 622 16
  have h3 : ((List.range' 9985 15).flatMap (fun i => [Op.add i, Op.del i])).foldl runOp
      (⟨9968, 0, List.replicate 17 none, []⟩ : ExpirationList Nat)
      = ⟨9968, 0, List.replicate 32 none, []⟩ := cycleA_drive 15 9968 17 (by omega)
  have h23 : ((List.range' 33 9967).flatMap (fun i => [Op.add i, Op.del i])).foldl runOp
      (⟨16, 0, List.replicate 17 none, []⟩ : ExpirationList Nat)
      = ⟨9968, 0, List.replicate 32 none, []⟩ :=
    foldl_split_flatMap 33 9952 15 _ _ _ _ h2 h3
  exact foldl_split_flatMap 0 33 9967 _ _ _ _ h1 h23

theorem churnTail_1 :
    ((List.range' 0 10).map Op.add).foldl runOp
      (⟨9968, 0, List.replicate 32 none, []⟩ : ExpirationList Nat)
      = ⟨9968, 10, List.replicate 32 none ++ (List.range' 0 10).map some, []⟩ := by
  decide

theorem churnTail_2 :
    ([Op.del 10004, Op.del 10007, Op.del 10008] : List (Op Nat)).foldl runOp
      ⟨9968, 10, List.replicate 32 none ++ (List.range' 0 10).map some, []⟩
      = ⟨9989, 7, List.replicate 11 none ++ [some 0, some 1, some 2, some 3, none, some 5,
          some 6, none, none, some 9], []⟩ := by
  decide

theorem run_opsChurn_eq :
    run opsChurn = ⟨9989, 7, List.replicate 11 none ++ [some 0, some 1, some 2, some 3, none,
      some 5, some 6, none, none, some 9], []⟩ := by
  unfold run opsChurn ExpirationList.new
  rw [List.foldl_append, List.foldl_append, churn_main, churnTail_1, churnTail_2]

/-! ### Symbolic drivers for the 1024-insert scenario -/

theorem adds_drive (n : Nat) :
    ∀ k : Nat, ((List.range' k n).map Op.add).foldl runOp
        (⟨0, k, (List.range' 0 k).map some, []⟩ : ExpirationList Nat)
      = ⟨0, k + n, (List.range' 0 (k + n)).map some, []⟩ := by
  induction n with
  | zero => intro k; simp [List.range']
  | succ n ih =>
    intro k
    rw [List.range'_succ, List.map_cons, List.foldl_cons]
    have hstep : runOp (⟨0, k, (List.range' 0 k).map some, []⟩ : ExpirationList Nat) (Op.add k)
        = ⟨0, k + 1, (List.range' 0 (k + 1)).map some, []⟩ := by
      show (⟨0, k + 1, (List.range' 0 k).map some ++ [some k], []⟩ : ExpirationList Nat)
        = ⟨0, k + 1, (List.range' 0 (k + 1)).map some, []⟩
      rw [List.range'_concat]
      simp
    rw [hstep, ih (k + 1)]
    have e : k + 1 + n = k + (n + 1) := by omega
    rw [e]

theorem dels_seq (n : Nat) :
    ∀ (A : List (Option Nat)) (b r c fid : Nat) (mp : List (Nat × Nat)),
      fid + A.length = b → n ≤ r → n ≤ c →
      (A.length + r ≤ (c - n) * 2 ∨ A.length + r ≤ 32) →
      ((List.range' b n).map Op.del).foldl runOp
        (⟨fid, c, A ++ (List.range' b r).map some, mp⟩ : ExpirationList Nat)
      = ⟨fid, c - n,
          (A ++ List.replicate n none) ++ (List.range' (b + n) (r - n)).map some, mp⟩ := by
  induction n with
  | zero =>
    intro A b r c fid mp _ _ _ _
    simp
  | succ n ih =>
    intro A b r c fid mp hb hr hc hnt
    obtain ⟨r', rfl⟩ : ∃ r', r = r' + 1 := ⟨r - 1, by omega⟩
    have hlst : (List.range' b (r' + 1)).map some
        = some b :: (List.range' (b + 1) r').map some := by
      rw [List.range'_succ b r' 1, List.map_cons]
    rw [hlst, List.range'_succ b n 1, List.map_cons, List.foldl_cons]
    have hlen : (A ++ some b :: (List.range' (b + 1) r').map some).length
        = A.length + (r' + 1) := by
      simp
    have hslot : (A ++ some b :: (List.range' (b + 1) r').map some)[b - fid]?
        = some (some b) := by
      have e : b - fid = A.length := by omega
      rw [e]
      exact getElem?_append_length' A (some b) _
    have hstep := remove_no_compact
        (⟨fid, c, A ++ some b :: (List.range' (b + 1) r').map some, mp⟩ :
          ExpirationList Nat) b b
        (by simp only; omega) hslot
        (by
          simp only
          rw [hlen]
          rcases hnt with h | h <;> omega)
    have hset : (A ++ some b :: (List.range' (b + 1) r').map some).set (b - fid) none
        = (A ++ [none]) ++ (List.range' (b + 1) r').map some := by
      have e : b - fid = A.length := by omega
      rw [e, set_append_length]
      simp
    simp only [runOp]
    rw [hstep]
    simp only [hset]
    have hih := ih (A ++ [none]) (b + 1) r' (c - 1) fid mp
      (by simp; omega) (by omega) (by omega)
      (by
        simp only [List.length_append, List.length_cons, List.length_nil]
        rcases hnt with h | h
        · left; omega
        · right; omega)
    rw [hih]
    have e1 : c - 1 - n = c - (n + 1) := by omega
    have e2 : b + 1 + n = b + (n + 1) := by omega
    have e3 : r' - n = r' + 1 - (n + 1) := by omega
    have e4 : (A ++ [none]) ++ List.replicate n (none : Option Nat)
        = A ++ List.replicate (n + 1) none := by
      rw [List.append_assoc, List.singleton_append, ← List.replicate_succ]
    rw [e1, e2, e3, e4]

theorem c4_rm512 :
    runOp (⟨0, 512, List.replicate 512 none ++ (List.range' 512 512).map some, []⟩ :
        ExpirationList Nat) (Op.del 512)
      = ⟨512, 511, none :: (List.range' 513 511).map some, []⟩ := by
  decide

theorem c4_rm855 :
    runOp (⟨512, 256, none :: ((List.range' 513 87).map some ++ List.replicate 255 none)
        ++ (List.range' 855 169).map some, []⟩ : ExpirationList Nat) (Op.del 855)
      = ⟨768, 168, List.replicate 88 none ++ (List.range' 856 168).map some,
          (List.range' 513 87).map (fun i => (i, i))⟩ := by
  decide

theorem run_opsC4_eq :
    run opsC4 = ⟨768, 164, List.replicate 92 none ++ (List.range' 860 164).map some,
      (List.range' 513 87).map (fun i => (i, i))⟩ := by
  have hA : ((List.range' 0 1024).map Op.add).foldl runOp
      (⟨0, 0, [], []⟩ : ExpirationList Nat)
      = ⟨0, 1024, (List.range' 0 1024).map some, []⟩ := adds_drive 1024 0
  have hB1 : ((List.range' 0 512).map Op.del).foldl runOp
      (⟨0, 1024, (List.range' 0 1024).map some, []⟩ : ExpirationList Nat)
      = ⟨0, 512, ([] ++ List.replicate 512 none) ++ (List.range' 512 512).map some, []⟩ :=
    dels_seq 512 [] 0 1024 1024 0 [] (by simp) (by omega) (by omega) (by left; simp)
  have hB2 : ((List.range' 512 1).map Op.del).foldl runOp
      (⟨0, 512, ([] ++ List.replicate 512 none) ++ (List.range' 512 512).map some, []⟩ :
        ExpirationList Nat)
      = ⟨512, 511, none :: (List.range' 513 511).map some, []⟩ := by
    simp only [List.range'_one, List.map_cons, List.map_nil, List.foldl_cons, List.foldl_nil,
      List.nil_append]
    exact c4_rm512
  have hB : ((List.range' 0 513).map Op.del).foldl runOp
      (⟨0, 1024, (List.range' 0 1024).map some, []⟩ : ExpirationList Nat)
      = ⟨512, 511, none :: (List.range' 513 511).map some, []⟩ :=
    foldl_split_map 0 512 1 _ _ _ _ hB1 hB2
  have hsplit : (List.range' 513 511).map (some : Nat → Option Nat)
      = (List.range' 513 87).map some ++ (List.range' 600 424).map some := by decide
  have hC0 : (⟨512, 511, none :: (List.range' 513 511).map some, []⟩ : ExpirationList Nat)
      = ⟨512, 511, (none :: (List.range' 513 87).map some)
          ++ (List.range' 600 424).map some, []⟩ := by
    rw [hsplit]
    rfl
  have hC1 : ((List.range' 600 255).map Op.del).foldl runOp
      (⟨512, 511, (none :: (List.range' 513 87).map some)
        ++ (List.range' 600 424).map some, []⟩ : ExpirationList Nat)
      = ⟨512, 256, ((none :: (List.range' 513 87).map some) ++ List.replicate 255 none)
          ++ (List.range' 855 169).map some, []⟩ :=
    dels_seq 255 (none :: (List.range' 513 87).map some) 600 424 511 512 []
      (by simp) (by omega) (by omega) (by left; simp)
  have hC2 : ((List.range' 855 1).map Op.del).foldl runOp
      (⟨512, 256, ((none :: (List.range' 513 87).map some) ++ List.replicate 255 none)
          ++ (List.range' 855 169).map some, []⟩ : ExpirationList Nat)
      = ⟨768, 168, List.replicate 88 none ++ (List.range' 856 168).map some,
          (List.range' 513 87).map (fun i => (i, i))⟩ := by
    simp only [List.range'_one, List.map_cons, List.map_nil, List.foldl_cons, List.foldl_nil,
      List.cons_append]
    exact c4_rm855
  have hC12 : ((List.range' 600 256).map Op.del).foldl runOp
      (⟨512, 511, (none :: (List.range' 513 87).map some)
        ++ (List.range' 600 424).map some, []⟩ : ExpirationList Nat)
      = ⟨768, 168, List.replicate 88 none ++ (List.range' 856 168).map some,
          (List.range' 513 87).map (fun i => (i, i))⟩ :=
    foldl_split_map 600 255 1 _ _ _ _ hC1 hC2
  have hC3 : ((List.range' 856 4).map Op.del).foldl runOp
      (⟨768, 168, List.replicate 88 none ++ (List.range' 856 168).map some,
        (List.range' 513 87).map (fun i => (i, i))⟩ : ExpirationList Nat)
      = ⟨768, 164, (List.replicate 88 none ++ List.replicate 4 none)
          ++ (List.range' 860 164).map some, (List.range' 513 87).map (fun i => (i, i))⟩ :=
    dels_seq 4 (List.replicate 88 none) 856 168 168 768
      ((List.range' 513 87).map (fun i => (i, i)))
      (by simp) (by omega) (by omega) (by left; simp)
  have hC : ((List.range' 600 260).map Op.del).foldl runOp
      (⟨512, 511, (none :: (List.range' 513 87).map some)
        ++ (List.range' 600 424).map some, []⟩ : ExpirationList Nat)
      = ⟨768, 164, (List.replicate 88 none ++ List.replicate 4 none)
          ++ (List.range' 860 164).map some, (List.range' 513 87).map (fun i => (i, i))⟩ :=
    foldl_split_map 600 256 4 _ _ _ _ hC12 hC3
  have hfin : (List.replicate 88 (none : Option Nat) ++ List.replicate 4 none)
      = List.replicate 92 none := by
    rw [← List.replicate_add]
  unfold run opsC4 ExpirationList.new
  rw [List.foldl_append, List.foldl_append, hA, hB, hC0, hC, hfin]

/-! ### Helper: extracting a populated slot from a successful lookup -/

theorem join_isSome_elim (s : ExpirationList T) (id : Nat)
    (h : (s.list[id - s.first_id]?).join.isSome = true) :
    ∃ v, s.list[id - s.first_id]? = some (some v) := by
  cases ho : s.list[id - s.first_id]? with
  | none => rw [ho] at h; simp [Option.join] at h
  | some o =>
    cases o with
    | none => rw [ho] at h; simp [Option.join] at h
    | some v => exact ⟨v, rfl⟩

/-- Resolution of a live identifier survives any operation sequence that
contains no removal of that identifier. -/
theorem get_foldl_preserve (ops₂ : List (Op T)) :
    ∀ (s : ExpirationList T) (id : Nat) (v : T), WF s → s.get id = some v →
      (∀ op ∈ ops₂, op ≠ Op.del id) → (ops₂.foldl runOp s).get id = some v := by
  induction ops₂ with
  | nil => intro s id v _ h _; exact h
  | cons op rest ih =>
    intro s id v hWF h hno
    rw [List.foldl_cons]
    refine ih (runOp s op) id v (WF_runOp s hWF op) ?_ (fun o ho => hno o (by simp [ho]))
    cases op with
    | add w => exact get_add_other s id v w h
    | del id' =>
      have hne : id ≠ id' := by
        intro e
        exact hno (Op.del id') (by simp) (by rw [e])
      show ((s.remove id').2).get id = some v
      rw [get_remove_other s hWF.2 id id' hne]
      exact h

/-! ### The claims -/

/-- C1: the spec says `contains` resolves by the same routing as `get`
(dense branch indexed at `id - first_id`, so `contains id = (get id).isSome`),
and the crate's doc comment promises `contains` is true exactly when an item
with the given id exists.  The code indexes the dense store at `id` instead
(lib.rs line 201): after 34 inserts and removal of ids 0..18, `first_id` is
17 and id 18 is live, yet `contains 18` returns `false` while `get 18`
returns the stored value. -/
theorem contains_get_divergence :
    (run opsC1).first_id = 17 ∧ (run opsC1).get 18 = some 18 ∧
      (run opsC1).contains 18 = false := by
  decide

/-- C2: an identifier returned by `add` keeps resolving via `get` to the very
value passed to that `add` until a `remove` of that identifier returns it:
freshly added identifiers resolve to their value, further `add`s, `remove`s
of other identifiers, and whole operation sequences free of a matching
`remove` (compaction included) preserve the resolution, and `remove` of the
identifier itself returns the value. -/
theorem identifier_stability {T : Type} (ops : List (Op T)) :
    (∀ v : T, ((run ops).add v).2.get ((run ops).add v).1 = some v) ∧
    (∀ (id : Nat) (v w : T), (run ops).get id = some v →
        ((run ops).add w).2.get id = some v) ∧
    (∀ (id : Nat) (v : T) (id' : Nat), (run ops).get id = some v → id' ≠ id →
        ((run ops).remove id').2.get id = some v) ∧
    (∀ (id : Nat) (v : T) (ops₂ : List (Op T)), (run ops).get id = some v →
        (∀ op ∈ ops₂, op ≠ Op.del id) →
        (ops₂.foldl runOp (run ops)).get id = some v) ∧
    (∀ (id : Nat) (v : T), (run ops).get id = some v →
        ((run ops).remove id).1 = some v) := by
  refine ⟨fun v => get_add_self _ v, fun id v w h => get_add_other _ id v w h,
    fun id v id' h hne => ?_,
    fun id v ops₂ h hno => get_foldl_preserve ops₂ (run ops) id v (WF_run ops) h hno,
    fun id v h => get_remove_fst _ id v h⟩
  rw [get_remove_other (run ops) (WF_run ops).2 id id' (fun e => hne e.symm)]
  exact h

theorem identifier_stability_witness :
    ((run [Op.add 5, Op.add 7]).add 9).2.get ((run [Op.add 5, Op.add 7]).add 9).1 = some 9 ∧
    ((run [Op.add 5, Op.add 7]).add 9).2.get 0 = some 5 ∧
    ((run [Op.add 5, Op.add 7]).remove 1).2.get 0 = some 5 ∧
    (([Op.add 3, Op.del 1] : List (Op Nat)).foldl runOp
        (run [Op.add 5, Op.add 7])).get 0 = some 5 ∧
    ((run [Op.add 5, Op.add 7]).remove 1).1 = some 7 := by
  have h := identifier_stability (T := Nat) [Op.add 5, Op.add 7]
  exact ⟨h.1 9, h.2.1 0 5 9 (by decide), h.2.2.1 0 5 1 (by decide) (by decide),
    h.2.2.2.1 0 5 [Op.add 3, Op.del 1] (by decide) (by decide),
    h.2.2.2.2 1 7 (by decide)⟩

/-- C3: immediately after any removal that fires the compaction trigger, the
new state satisfies `count * 2 ≥ dense length` or `dense length ≤ 32`; the
adaptive extension never leaves the trigger satisfied when shrinking was
possible. -/
theorem compaction_threshold {T : Type} (s : ExpirationList T) (id : Nat)
    (h : triggersCompaction s id) :
    (s.remove id).2.count * 2 ≥ (s.remove id).2.list.length ∨
      (s.remove id).2.list.length ≤ 32 := by
  obtain ⟨hge, hsome, htr, hlen⟩ := h
  have hnlt : ¬ id < s.first_id := by omega
  obtain ⟨v, hv⟩ := join_isSome_elim s id hsome
  obtain ⟨k, _, _, hk2, _, heq, hneg⟩ := remove_compact_spec s id v hnlt hv htr hlen
  rw [heq]
  simp only [List.length_drop, List.length_set]
  omega

theorem compaction_threshold_witness :
    triggersCompaction (run opsPreTrig) 17 ∧
      (((run opsPreTrig).remove 17).2.count * 2 ≥ ((run opsPreTrig).remove 17).2.list.length ∨
        ((run opsPreTrig).remove 17).2.list.length ≤ 32) :=
  ⟨by decide, compaction_threshold (run opsPreTrig) 17 (by decide)⟩

/-- C4: after inserting 1024 values for ids 0..1024, removing ids 0..513 and
removing ids 600..860, the container holds 251 live entries in total, with 87
in the overflow store, 164 resident in the dense store, `first_id = 768` and
dense length 256. -/
theorem scenario_counts :
    (run opsC4).count + (run opsC4).map.length = 251 ∧
    (run opsC4).map.length = 87 ∧ (run opsC4).count = 164 ∧
    (run opsC4).first_id = 768 ∧ (run opsC4).list.length = 256 := by
  rw [run_opsC4_eq]
  decide

/-- C5: iteration yields all overflow-store entries first (in the map's own
order), then the populated dense slots as pairs `(first_id + index, value)`
in ascending identifier order; in the 10000-item FIFO churn scenario followed
by 10 inserts and removal of the ids at offsets 4, 7, 8, the overflow store
is empty and iteration yields exactly the values `[0, 1, 2, 3, 5, 6, 9]`. -/
theorem iteration_order :
    (∀ (T : Type) (s : ExpirationList T),
      drain (intoIter s) = s.map ++ drainL s.list s.first_id ∧
      drainL s.list s.first_id
        = (s.list.enumFrom s.first_id).filterMap (fun p => p.2.map (fun v => (p.1, v))) ∧
      (drainL s.list s.first_id).Pairwise (fun a b => a.1 < b.1)) ∧
    (drain (intoIter (run opsChurn))).map Prod.snd = [0, 1, 2, 3, 5, 6, 9] := by
  refine ⟨fun T s => ⟨drain_intoIter s, drainL_eq_enumFrom s.list s.first_id,
      drainL_pairwise s.list s.first_id⟩, ?_⟩
  rw [run_opsChurn_eq]
  decide

/-- C6: `add` appends the value as a populated slot at the end of the dense
store (length grows by one), increments `count`, returns
`first_id + (new length - 1)`, never compacts, and leaves `first_id` and the
overflow store unchanged. -/
theorem add_spec {T : Type} (s : ExpirationList T) (v : T) :
    (s.add v).2.list = s.list ++ [some v] ∧
    (s.add v).2.list.length = s.list.length + 1 ∧
    (s.add v).2.count = s.count + 1 ∧
    (s.add v).1 = s.first_id + ((s.add v).2.list.length - 1) ∧
    (s.add v).2.first_id = s.first_id ∧
    (s.add v).2.map = s.map := by
  refine ⟨rfl, by simp [ExpirationList.add], rfl, ?_, rfl, rfl⟩
  rw [add_fst]
  simp [ExpirationList.add]

/-- C7: removing an identifier that does not resolve (never assigned, out of
range, or already removed) returns absence and leaves the container exactly
unchanged, so repeated removals of a dead identifier never mutate anything. -/
theorem remove_absent_noop {T : Type} (s : ExpirationList T) (id : Nat)
    (h : s.get id = none) : s.remove id = (none, s) := by
  by_cases hlt : id < s.first_id
  · simp only [ExpirationList.get, if_pos hlt] at h
    rw [remove_map_branch s id hlt, mapRemove_of_get_none s.map id h]
  · simp only [ExpirationList.get, if_neg hlt] at h
    cases hsl : s.list[id - s.first_id]? with
    | none => exact remove_out_of_range s id hlt hsl
    | some slot =>
      cases slot with
      | none => exact remove_slot_none s id hlt hsl
      | some v => rw [hsl] at h; simp [Option.join] at h

theorem remove_absent_noop_witness :
    (run [Op.add 3]).remove 5 = (none, run [Op.add 3]) :=
  remove_absent_noop (run [Op.add 3]) 5 (by decide)

/-- C8: in every state reachable by add/remove operations from the empty
container, `count` equals exactly the number of populated slots of the dense
store (overflow entries excluded). -/
theorem count_invariant {T : Type} (ops : List (Op T)) :
    (run ops).count = countSome (run ops).list :=
  (WF_run ops).1

/-- C9: `first_id + dense length` is the identifier the next `add` assigns,
it never decreases across any operation, and two `add` calls separated by any
operations always return distinct (strictly increasing) identifiers. -/
theorem id_monotone_no_reuse {T : Type} :
    (∀ (s : ExpirationList T) (v : T), (s.add v).1 = nextId s) ∧
    (∀ (s : ExpirationList T) (op : Op T), nextId s ≤ nextId (runOp s op)) ∧
    (∀ (s : ExpirationList T) (v : T) (ops : List (Op T)) (w : T),
      (s.add v).1 < ((ops.foldl runOp (s.add v).2).add w).1) := by
  refine ⟨fun s v => add_fst s v, nextId_runOp, fun s v ops w => ?_⟩
  rw [add_fst, add_fst]
  show nextId s < nextId (ops.foldl runOp (s.add v).2)
  have h1 : nextId (s.add v).2 = nextId s + 1 := nextId_add s v
  have h2 := nextId_foldl ops (s.add v).2
  omega

/-- C10: on every reachable state, the unsigned subtractions inside `remove`
never underflow (the checked variant `removeChk` agrees with `remove`), and a
triggered compaction pass never retires the whole dense store: the new dense
store has length at least 17. -/
theorem no_underflow_safety {T : Type} (ops : List (Op T)) (id : Nat) :
    removeChk (run ops) id = some ((run ops).remove id) ∧
    (triggersCompaction (run ops) id →
      17 ≤ ((run ops).remove id).2.list.length) := by
  refine ⟨removeChk_eq (run ops) (WF_run ops) id, fun htrig => ?_⟩
  obtain ⟨hge, hsome, htr, hlen⟩ := htrig
  have hnlt : ¬ id < (run ops).first_id := by omega
  obtain ⟨v, hv⟩ := join_isSome_elim (run ops) id hsome
  obtain ⟨k, _, _, _, hk17, heq, _⟩ := remove_compact_spec (run ops) id v hnlt hv htr hlen
  rw [heq]
  simp only [List.length_drop, List.length_set]
  omega

theorem no_underflow_safety_witness :
    removeChk (run opsPreTrig) 17 = some ((run opsPreTrig).remove 17) ∧
      17 ≤ ((run opsPreTrig).remove 17).2.list.length := by
  have h := no_underflow_safety (T := Nat) opsPreTrig 17
  exact ⟨h.1, h.2 (by decide)⟩

end ExpirationSpec
